import Mathlib

set_option autoImplicit false

/-!
A shallow embedding of the Minesweeper board engine (the `Minesweeper` class of
`Minesweeper.py`) together with proofs of its specified properties.  Python
integers are modelled as `Int`, the per-cell sets as `Finset (Int × Int)`, and
the adjacency grid as a function from coordinates to counts.  The random
sampler `random.Random.sample` is modelled by an arbitrary function subject to
the `ValidPick` contract (it returns the requested number of distinct elements
of the pool); theorems quantify over all such samplers, which captures
quantification over every random seed.
-/

namespace Minesweeper

/-- A board coordinate `(row, col)`; Python tuples of ints. -/
abbrev Coord := Int × Int

/-- The `GameConfig` dataclass: rows, cols and requested mine count. -/
structure GameConfig where
  rows : Int
  cols : Int
  mines : Int
deriving DecidableEq

/-- Python `Minesweeper.in_bounds`: `0 <= r < rows and 0 <= c < cols`. -/
def in_bounds (cfg : GameConfig) (r c : Int) : Bool :=
  decide (0 ≤ r ∧ r < cfg.rows ∧ 0 ≤ c ∧ c < cfg.cols)

/-- The eight offsets produced by the nested `dr`/`dc` loops of
`Minesweeper.neighbors`, in iteration order, with `(0, 0)` skipped. -/
def neighborOffsets : List (Int × Int) :=
  [(-1, -1), (-1, 0), (-1, 1), (0, -1), (0, 1), (1, -1), (1, 0), (1, 1)]

/-- Python `Minesweeper.neighbors`: the in-bounds cells at Chebyshev distance 1
from `(r, c)`, in the order the Python loops append them. -/
def neighbors (cfg : GameConfig) (r c : Int) : List Coord :=
  (neighborOffsets.map (fun d => (r + d.1, c + d.2))).filter
    (fun p => in_bounds cfg p.1 p.2)

/-- The set of all in-bounds cells of the board. -/
def boardCells (cfg : GameConfig) : Finset Coord :=
  Finset.Icc 0 (cfg.rows - 1) ×ˢ Finset.Icc 0 (cfg.cols - 1)

/-- The row-major cell enumeration
`[(r, c) for r in range(rows) for c in range(cols)]`. -/
def allCells (cfg : GameConfig) : List Coord :=
  (List.range cfg.rows.toNat).flatMap fun r =>
    (List.range cfg.cols.toNat).map fun c => (Int.ofNat r, Int.ofNat c)

/-- The first candidate pool of `_place_mines_first_click_safe`: all cells
outside the forbidden zone `{safe} ∪ neighbors(safe)`. -/
def candidates_strict (cfg : GameConfig) (safe : Coord) : List Coord :=
  (allCells cfg).filter fun p =>
    decide (¬(p = safe ∨ p ∈ neighbors cfg safe.1 safe.2))

/-- The fallback candidate pool: all cells other than `safe` itself. -/
def candidates_relaxed (cfg : GameConfig) (safe : Coord) : List Coord :=
  (allCells cfg).filter fun p => decide (p ≠ safe)

/-- The pool actually sampled: the strict pool, relaxed automatically when
it holds fewer than `cfg.mines` cells. -/
def placement_pool (cfg : GameConfig) (safe : Coord) : List Coord :=
  if ((candidates_strict cfg safe).length : Int) < cfg.mines then
    candidates_relaxed cfg safe
  else candidates_strict cfg safe

/-- Python `Minesweeper._recompute_adjacency`: every mine increments each of its
in-bounds neighbors, so a cell's stored count is the number of mines that
list it among their neighbors. -/
def adjFromMines (cfg : GameConfig) (mines : Finset Coord) : Coord → Nat :=
  fun p => (mines.filter (fun m => p ∈ neighbors cfg m.1 m.2)).card

/-- The mutable state of a `Minesweeper` instance. -/
structure GameState where
  cfg : GameConfig
  mines : Finset Coord
  adj : Coord → Nat
  revealed : Finset Coord
  flags : Finset Coord
  minesPlaced : Bool
  gameOver : Bool
  won : Bool

/-- The state built by `Minesweeper.__init__` after its validation passes. -/
def initState (cfg : GameConfig) : GameState :=
  { cfg := cfg
    mines := ∅
    adj := fun _ => 0
    revealed := ∅
    flags := ∅
    minesPlaced := false
    gameOver := false
    won := false }

/-- Python `Minesweeper.__init__`: raises `ValueError` iff `mines >= rows * cols`,
otherwise produces the fresh state. -/
def mkGame (cfg : GameConfig) : Except String GameState :=
  if cfg.rows * cfg.cols ≤ cfg.mines then
    .error "Number of mines must be less than total cells."
  else .ok (initState cfg)

/-- Abstraction of `random.Random.sample`: a sampler is valid if, on any
duplicate-free pool of size at least `k` (with `0 ≤ k`), it returns `k`
distinct elements of the pool. Quantifying over valid samplers models
quantifying over every random seed. -/
def ValidPick (pick : List Coord → Int → List Coord) : Prop :=
  ∀ (l : List Coord) (k : Int), l.Nodup → 0 ≤ k → k ≤ (l.length : Int) →
    (pick l k).Nodup ∧ ((pick l k).length : Int) = k ∧ ∀ x ∈ pick l k, x ∈ l

/-- A concrete valid sampler: take the first `k` pool elements. -/
def pickTake : List Coord → Int → List Coord := fun l k => l.take k.toNat

/-- Python `Minesweeper._place_mines_first_click_safe` with the sampler abstracted. -/
def place_mines_first_click_safe (pick : List Coord → Int → List Coord)
    (s : GameState) (safe : Coord) : GameState :=
  { s with
    mines := (pick (placement_pool s.cfg safe) s.cfg.mines).toFinset
    adj := adjFromMines s.cfg (pick (placement_pool s.cfg safe) s.cfg.mines).toFinset
    minesPlaced := true }

/-- One fuel-indexed unfolding of the `while stack:` loop of
`Minesweeper._flood_reveal`.  The list head is the top of the Python stack;
`flood_fuel` below always suffices for the loop to drain the stack
(theorem `flood_loop_drains`), so the fuel never cuts the loop short. -/
def flood_loop : GameState → List Coord → Nat → GameState × List Coord
  | s, stack, 0 => (s, stack)
  | s, [], _ + 1 => (s, [])
  | s, cell :: rest, fuel + 1 =>
    if cell ∈ s.revealed ∨ cell ∈ s.flags then flood_loop s rest fuel
    else
      let s1 : GameState := { s with revealed := insert cell s.revealed }
      if s.adj cell = 0 then
        let pushed := (neighbors s.cfg cell.1 cell.2).filter fun nb =>
          decide (nb ∉ s1.revealed ∧ nb ∉ s.mines ∧ nb ∉ s.flags)
        flood_loop s1 (pushed.reverse ++ rest) fuel
      else flood_loop s1 rest fuel

/-- Fuel that always drains the flood stack (proved in `flood_loop_drains`). -/
def flood_fuel (cfg : GameConfig) : Nat :=
  9 * ((boardCells cfg).card + 1) + 1

/-- Python `Minesweeper._flood_reveal`. -/
def flood_reveal (s : GameState) (start : Coord) : GameState :=
  (flood_loop s [start] (flood_fuel s.cfg)).1

/-- Python `Minesweeper._check_win`. -/
def check_win (s : GameState) : GameState :=
  if (s.revealed.card : Int) = s.cfg.rows * s.cfg.cols - s.cfg.mines then
    { s with gameOver := true, won := true }
  else s

/-- Python `Minesweeper.toggle_flag`. -/
def toggle_flag (s : GameState) (r c : Int) : GameState :=
  if s.gameOver = true ∨ in_bounds s.cfg r c = false then s
  else if (r, c) ∈ s.revealed then s
  else if (r, c) ∈ s.flags then { s with flags := s.flags.erase (r, c) }
  else { s with flags := insert (r, c) s.flags }

/-- The lazy-placement step at the start of an effective `reveal`: place the
mines with the clicked cell as the safe cell unless they are already placed. -/
def placeIfNeeded (pick : List Coord → Int → List Coord) (s : GameState)
    (safe : Coord) : GameState :=
  if s.minesPlaced = true then s else place_mines_first_click_safe pick s safe

/-- Python `Minesweeper.reveal`. -/
def reveal (pick : List Coord → Int → List Coord) (s : GameState)
    (r c : Int) : GameState :=
  if s.gameOver = true ∨ in_bounds s.cfg r c = false then s
  else if (r, c) ∈ s.flags ∨ (r, c) ∈ s.revealed then s
  else if (r, c) ∈ (placeIfNeeded pick s (r, c)).mines then
    { placeIfNeeded pick s (r, c) with
      gameOver := true
      won := false
      revealed := insert (r, c) (placeIfNeeded pick s (r, c)).revealed }
  else check_win (flood_reveal (placeIfNeeded pick s (r, c)) (r, c))

/-- A configuration the engine can actually play: the constructor's check
plus non-negative mine count (the spec's configuration invariant). -/
def ValidCfg (cfg : GameConfig) : Prop :=
  0 ≤ cfg.mines ∧ cfg.mines < cfg.rows * cfg.cols

/-- The states reachable by constructing an engine on a valid configuration
and issuing any sequence of `reveal` / `toggle_flag` calls, with any valid
sampler at each reveal. -/
inductive Reachable : GameState → Prop
  | init (cfg : GameConfig) : ValidCfg cfg → Reachable (initState cfg)
  | step_reveal {s : GameState} (pick : List Coord → Int → List Coord)
      (r c : Int) : Reachable s → ValidPick pick → Reachable (reveal pick s r c)
  | step_flag {s : GameState} (r c : Int) : Reachable s →
      Reachable (toggle_flag s r c)

/-! Basic facts about bounds, neighborhoods and the cell enumeration. -/

theorem in_bounds_iff {cfg : GameConfig} {r c : Int} :
    in_bounds cfg r c = true ↔ 0 ≤ r ∧ r < cfg.rows ∧ 0 ≤ c ∧ c < cfg.cols := by
  simp [in_bounds]

theorem mem_boardCells {cfg : GameConfig} {p : Coord} :
    p ∈ boardCells cfg ↔ 0 ≤ p.1 ∧ p.1 < cfg.rows ∧ 0 ≤ p.2 ∧ p.2 < cfg.cols := by
  cases p with
  | mk a b =>
    simp only [boardCells, Finset.mem_product, Finset.mem_Icc]
    omega

theorem in_bounds_iff_mem_boardCells {cfg : GameConfig} {p : Coord} :
    in_bounds cfg p.1 p.2 = true ↔ p ∈ boardCells cfg := by
  rw [in_bounds_iff, mem_boardCells]

theorem mem_neighbors {cfg : GameConfig} {p : Coord} {r c : Int} :
    p ∈ neighbors cfg r c ↔
      in_bounds cfg p.1 p.2 = true ∧ p ≠ (r, c) ∧
        p.1 - r ≤ 1 ∧ r - p.1 ≤ 1 ∧ p.2 - c ≤ 1 ∧ c - p.2 ≤ 1 := by
  obtain ⟨a, b⟩ := p
  constructor
  · intro h
    rw [neighbors, List.mem_filter] at h
    obtain ⟨hmem, hb⟩ := h
    rw [List.mem_map] at hmem
    obtain ⟨d, hd, hdeq⟩ := hmem
    have h1 : r + d.1 = a := congrArg Prod.fst hdeq
    have h2 : c + d.2 = b := congrArg Prod.snd hdeq
    have hd8 : d = (-1, -1) ∨ d = (-1, 0) ∨ d = (-1, 1) ∨ d = (0, -1) ∨
        d = (0, 1) ∨ d = (1, -1) ∨ d = (1, 0) ∨ d = (1, 1) := by
      simpa [neighborOffsets] using hd
    have hda : d.1 = -1 ∨ d.1 = 0 ∨ d.1 = 1 := by
      rcases hd8 with rfl | rfl | rfl | rfl | rfl | rfl | rfl | rfl <;> simp
    have hdb : d.2 = -1 ∨ d.2 = 0 ∨ d.2 = 1 := by
      rcases hd8 with rfl | rfl | rfl | rfl | rfl | rfl | rfl | rfl <;> simp
    have hdz : ¬(d.1 = 0 ∧ d.2 = 0) := by
      rcases hd8 with rfl | rfl | rfl | rfl | rfl | rfl | rfl | rfl <;> simp
    refine ⟨hb, ?_, by omega, by omega, by omega, by omega⟩
    intro hcontra
    have e1 : a = r := congrArg Prod.fst hcontra
    have e2 : b = c := congrArg Prod.snd hcontra
    omega
  · rintro ⟨hb, hne, h1, h2, h3, h4⟩
    rw [neighbors, List.mem_filter]
    refine ⟨?_, hb⟩
    rw [List.mem_map]
    refine ⟨(a - r, b - c), ?_, by simp only [Prod.mk.injEq]; omega⟩
    have hne0 : ¬(a - r = 0 ∧ b - c = 0) := by
      rintro ⟨e1, e2⟩
      exact hne (by simp only [Prod.mk.injEq]; omega)
    have ha3 : a - r = -1 ∨ a - r = 0 ∨ a - r = 1 := by omega
    have hb3 : b - c = -1 ∨ b - c = 0 ∨ b - c = 1 := by omega
    rcases ha3 with e1 | e1 | e1 <;> rcases hb3 with e2 | e2 | e2 <;>
      rw [e1, e2] <;> first | decide | exact absurd ⟨e1, e2⟩ hne0

theorem neighbors_mem_boardCells {cfg : GameConfig} {p : Coord} {r c : Int}
    (h : p ∈ neighbors cfg r c) : p ∈ boardCells cfg := by
  rw [mem_neighbors] at h
  exact in_bounds_iff_mem_boardCells.mp h.1

theorem neighbors_length_le (cfg : GameConfig) (r c : Int) :
    (neighbors cfg r c).length ≤ 8 := by
  have h := List.length_filter_le (fun p : Coord => in_bounds cfg p.1 p.2)
    (neighborOffsets.map (fun d => (r + d.1, c + d.2)))
  simpa [neighbors, neighborOffsets] using h

theorem mem_neighbors_symm {cfg : GameConfig} {p q : Coord}
    (hp : in_bounds cfg p.1 p.2 = true) (hq : in_bounds cfg q.1 q.2 = true) :
    p ∈ neighbors cfg q.1 q.2 ↔ q ∈ neighbors cfg p.1 p.2 := by
  rw [mem_neighbors, mem_neighbors]
  constructor
  · rintro ⟨-, hne, c1, c2, c3, c4⟩
    exact ⟨hq, hne.symm, by omega, by omega, by omega, by omega⟩
  · rintro ⟨-, hne, c1, c2, c3, c4⟩
    exact ⟨hp, hne.symm, by omega, by omega, by omega, by omega⟩

theorem mem_allCells {cfg : GameConfig} {p : Coord} :
    p ∈ allCells cfg ↔ 0 ≤ p.1 ∧ p.1 < cfg.rows ∧ 0 ≤ p.2 ∧ p.2 < cfg.cols := by
  cases p with
  | mk a b =>
    unfold allCells
    constructor
    · intro h
      rw [List.mem_flatMap] at h
      obtain ⟨r, hr, hmem⟩ := h
      rw [List.mem_map] at hmem
      obtain ⟨c, hc, heq⟩ := hmem
      rw [List.mem_range] at hr hc
      have e1 : Int.ofNat r = a := congrArg Prod.fst heq
      have e2 : Int.ofNat c = b := congrArg Prod.snd heq
      rw [Int.ofNat_eq_natCast] at e1 e2
      omega
    · rintro ⟨h1, h2, h3, h4⟩
      rw [List.mem_flatMap]
      refine ⟨a.toNat, ?_, ?_⟩
      · rw [List.mem_range]; omega
      · rw [List.mem_map]
        refine ⟨b.toNat, by rw [List.mem_range]; omega, ?_⟩
        simp only [Prod.mk.injEq, Int.ofNat_eq_natCast]
        omega

theorem allCells_nodup (cfg : GameConfig) : (allCells cfg).Nodup := by
  rw [allCells, List.nodup_flatMap]
  constructor
  · intro r _
    refine List.Nodup.map ?_ (List.nodup_range _)
    intro c c' h
    have h2 := congrArg Prod.snd h
    simpa [Int.ofNat_eq_natCast] using h2
  · apply List.Pairwise.imp ?_ (List.nodup_range cfg.rows.toNat)
    intro r r' hrr
    simp only [List.Disjoint, List.mem_map, List.mem_range]
    rintro x ⟨c, hc, he⟩ ⟨c', hc', he2⟩
    rw [← he2] at he
    have h3 := congrArg Prod.fst he
    simp only [Int.ofNat_eq_natCast, Nat.cast_inj] at h3
    exact hrr h3

theorem length_allCells (cfg : GameConfig) :
    (allCells cfg).length = cfg.rows.toNat * cfg.cols.toNat := by
  simp [allCells, List.length_flatMap, Function.comp_def, List.map_const',
    List.sum_replicate, smul_eq_mul]

theorem card_boardCells (cfg : GameConfig) :
    (boardCells cfg).card = cfg.rows.toNat * cfg.cols.toNat := by
  simp only [boardCells, Finset.card_product, Int.card_Icc]
  congr 1 <;> omega

/-! Facts about the mine-placement candidate pools. -/

theorem placement_pool_nodup (cfg : GameConfig) (safe : Coord) :
    (placement_pool cfg safe).Nodup := by
  rw [placement_pool]
  split
  · exact (allCells_nodup cfg).filter _
  · exact (allCells_nodup cfg).filter _

theorem mem_placement_pool {cfg : GameConfig} {safe p : Coord}
    (h : p ∈ placement_pool cfg safe) : p ∈ allCells cfg ∧ p ≠ safe := by
  rw [placement_pool] at h
  split at h
  · rw [candidates_relaxed, List.mem_filter] at h
    exact ⟨h.1, by simpa using h.2⟩
  · rw [candidates_strict, List.mem_filter] at h
    have h2 := h.2
    simp only [decide_eq_true_eq, not_or] at h2
    exact ⟨h.1, h2.1⟩

theorem mines_le_length_placement_pool {cfg : GameConfig} {safe : Coord}
    (hv : ValidCfg cfg) (hb : in_bounds cfg safe.1 safe.2 = true) :
    cfg.mines ≤ ((placement_pool cfg safe).length : Int) := by
  have hbounds := in_bounds_iff.mp hb
  have hr : 0 < cfg.rows := by omega
  have hc : 0 < cfg.cols := by omega
  have hcast : (((allCells cfg).length : Nat) : Int) = cfg.rows * cfg.cols := by
    rw [length_allCells]
    push_cast
    rw [Int.toNat_of_nonneg hr.le, Int.toNat_of_nonneg hc.le]
  rw [placement_pool]
  split
  · have hs : safe ∈ allCells cfg := mem_allCells.mpr hbounds
    have h1 : (candidates_relaxed cfg safe).length = (allCells cfg).length - 1 := by
      have hfe : (allCells cfg).filter (fun p => decide (p ≠ safe)) =
          (allCells cfg).filter (fun x => x != safe) := by
        apply List.filter_congr
        intro x _
        by_cases hx : x = safe <;> simp [hx]
      rw [candidates_relaxed, hfe,
        ← List.Nodup.erase_eq_filter (allCells_nodup cfg) safe]
      exact List.length_erase_of_mem hs
    have hv2 : cfg.mines < (((allCells cfg).length : Nat) : Int) := by
      rw [hcast]; exact hv.2
    have hlen1 : 1 ≤ (allCells cfg).length := List.length_pos_of_mem hs
    rw [h1]
    omega
  · omega

/-! Consequences of the sampler contract for mine placement. -/

theorem place_mines_mines_spec {safe : Coord}
    {pick : List Coord → Int → List Coord} {s : GameState}
    (hv : ValidCfg s.cfg) (hb : in_bounds s.cfg safe.1 safe.2 = true)
    (hp : ValidPick pick) :
    (place_mines_first_click_safe pick s safe).mines.card = s.cfg.mines.toNat ∧
    safe ∉ (place_mines_first_click_safe pick s safe).mines ∧
    ∀ p ∈ (place_mines_first_click_safe pick s safe).mines, p ∈ boardCells s.cfg := by
  obtain ⟨hnd, hlen, hsub⟩ := hp (placement_pool s.cfg safe) s.cfg.mines
    (placement_pool_nodup _ _) hv.1 (mines_le_length_placement_pool hv hb)
  refine ⟨?_, ?_, ?_⟩
  · rw [place_mines_first_click_safe]
    simp only
    rw [List.toFinset_card_of_nodup hnd]
    omega
  · intro hmem
    rw [place_mines_first_click_safe] at hmem
    simp only [List.mem_toFinset] at hmem
    exact (mem_placement_pool (hsub safe hmem)).2 rfl
  · intro p hmem
    rw [place_mines_first_click_safe] at hmem
    simp only [List.mem_toFinset] at hmem
    have hall := (mem_placement_pool (hsub p hmem)).1
    exact in_bounds_iff_mem_boardCells.mp (in_bounds_iff.mpr (mem_allCells.mp hall))

theorem validPick_pickTake : ValidPick pickTake := by
  intro l k hnd hk hkl
  refine ⟨hnd.sublist (List.take_sublist _ _), ?_, fun x hx => List.mem_of_mem_take hx⟩
  rw [pickTake, List.length_take]
  omega

/-! The flood-reveal loop: step equations, frame conditions, growth of the
revealed set, and the proof that the fuel bound drains the stack. -/

theorem flood_loop_skip {s : GameState} {cell : Coord} {rest : List Coord}
    {fuel : Nat} (h : cell ∈ s.revealed ∨ cell ∈ s.flags) :
    flood_loop s (cell :: rest) (fuel + 1) = flood_loop s rest fuel := by
  simp only [flood_loop, if_pos h]

theorem flood_loop_zero_adj {s : GameState} {cell : Coord} {rest : List Coord}
    {fuel : Nat} (h : ¬(cell ∈ s.revealed ∨ cell ∈ s.flags))
    (ha : s.adj cell = 0) :
    flood_loop s (cell :: rest) (fuel + 1) =
      flood_loop { s with revealed := insert cell s.revealed }
        (((neighbors s.cfg cell.1 cell.2).filter fun nb =>
            decide (nb ∉ insert cell s.revealed ∧ nb ∉ s.mines ∧ nb ∉ s.flags)).reverse
          ++ rest) fuel := by
  simp only [flood_loop, if_neg h, if_pos ha]

theorem flood_loop_pos_adj {s : GameState} {cell : Coord} {rest : List Coord}
    {fuel : Nat} (h : ¬(cell ∈ s.revealed ∨ cell ∈ s.flags))
    (ha : ¬s.adj cell = 0) :
    flood_loop s (cell :: rest) (fuel + 1) =
      flood_loop { s with revealed := insert cell s.revealed } rest fuel := by
  simp only [flood_loop, if_neg h, if_neg ha]

theorem flood_loop_spec (fuel : Nat) :
    ∀ (s : GameState) (stack : List Coord),
    ((flood_loop s stack fuel).1.cfg = s.cfg ∧
     (flood_loop s stack fuel).1.mines = s.mines ∧
     (flood_loop s stack fuel).1.flags = s.flags ∧
     (flood_loop s stack fuel).1.adj = s.adj ∧
     (flood_loop s stack fuel).1.minesPlaced = s.minesPlaced ∧
     (flood_loop s stack fuel).1.gameOver = s.gameOver ∧
     (flood_loop s stack fuel).1.won = s.won) ∧
    s.revealed ⊆ (flood_loop s stack fuel).1.revealed ∧
    ∀ x ∈ (flood_loop s stack fuel).1.revealed, x ∉ s.revealed →
      x ∉ s.flags ∧ (x ∈ stack ∨ (x ∈ boardCells s.cfg ∧ x ∉ s.mines)) := by
  induction fuel with
  | zero =>
    intro s stack
    cases stack <;>
      exact ⟨⟨rfl, rfl, rfl, rfl, rfl, rfl, rfl⟩, Finset.Subset.refl _,
        fun x hx hnx => absurd hx hnx⟩
  | succ fuel ih =>
    intro s stack
    cases stack with
    | nil =>
      exact ⟨⟨rfl, rfl, rfl, rfl, rfl, rfl, rfl⟩, Finset.Subset.refl _,
        fun x hx hnx => absurd hx hnx⟩
    | cons cell rest =>
      by_cases hskip : cell ∈ s.revealed ∨ cell ∈ s.flags
      · rw [flood_loop_skip hskip]
        obtain ⟨hf, hsub, hchar⟩ := ih s rest
        exact ⟨hf, hsub, fun x hx hnx =>
          ⟨(hchar x hx hnx).1,
           (hchar x hx hnx).2.imp (List.mem_cons_of_mem _) id⟩⟩
      · by_cases hadj : s.adj cell = 0
        · rw [flood_loop_zero_adj hskip hadj]
          obtain ⟨hf, hsub, hchar⟩ :=
            ih { s with revealed := insert cell s.revealed }
              (((neighbors s.cfg cell.1 cell.2).filter fun nb =>
                decide (nb ∉ insert cell s.revealed ∧ nb ∉ s.mines ∧ nb ∉ s.flags)).reverse
                ++ rest)
          refine ⟨hf, ?_, ?_⟩
          · exact fun x hx => hsub (Finset.mem_insert_of_mem hx)
          · intro x hx hnx
            by_cases hxc : x = cell
            · subst hxc
              exact ⟨fun hfl => hskip (Or.inr hfl), Or.inl (List.mem_cons_self _ _)⟩
            · have hx1 : x ∉ insert cell s.revealed := by
                rw [Finset.mem_insert]
                exact fun hc => hc.elim hxc hnx
              obtain ⟨hxf, hxw⟩ := hchar x hx hx1
              refine ⟨hxf, ?_⟩
              rcases hxw with hxs | hxb
              · rw [List.mem_append, List.mem_reverse] at hxs
                rcases hxs with hpu | hre
                · rw [List.mem_filter] at hpu
                  have hcond := hpu.2
                  simp only [decide_eq_true_eq] at hcond
                  exact Or.inr ⟨neighbors_mem_boardCells hpu.1, hcond.2.1⟩
                · exact Or.inl (List.mem_cons_of_mem _ hre)
              · exact Or.inr hxb
        · rw [flood_loop_pos_adj hskip hadj]
          obtain ⟨hf, hsub, hchar⟩ :=
            ih { s with revealed := insert cell s.revealed } rest
          refine ⟨hf, ?_, ?_⟩
          · exact fun x hx => hsub (Finset.mem_insert_of_mem hx)
          · intro x hx hnx
            by_cases hxc : x = cell
            · subst hxc
              exact ⟨fun hfl => hskip (Or.inr hfl), Or.inl (List.mem_cons_self _ _)⟩
            · have hx1 : x ∉ insert cell s.revealed := by
                rw [Finset.mem_insert]
                exact fun hc => hc.elim hxc hnx
              obtain ⟨hxf, hxw⟩ := hchar x hx hx1
              exact ⟨hxf, hxw.imp (List.mem_cons_of_mem _) id⟩

/-- The quantity the while loop strictly decreases: unprocessed potential
cells (board cells and stacked cells not yet revealed), weighted so that a
reveal step pays for the at most eight neighbors it pushes, plus the stack
length. -/
def floodMeasure (s : GameState) (stack : List Coord) : Nat :=
  9 * ((boardCells s.cfg ∪ stack.toFinset) \ s.revealed).card + stack.length

theorem flood_loop_drains (fuel : Nat) :
    ∀ (s : GameState) (stack : List Coord), floodMeasure s stack ≤ fuel →
      (flood_loop s stack fuel).2 = [] := by
  induction fuel with
  | zero =>
    intro s stack h
    cases stack with
    | nil => rfl
    | cons a l => simp [floodMeasure] at h
  | succ fuel ih =>
    intro s stack h
    cases stack with
    | nil => rfl
    | cons cell rest =>
      by_cases hskip : cell ∈ s.revealed ∨ cell ∈ s.flags
      · rw [flood_loop_skip hskip]
        apply ih
        have hsub : (boardCells s.cfg ∪ rest.toFinset) \ s.revealed ⊆
            (boardCells s.cfg ∪ (cell :: rest).toFinset) \ s.revealed := by
          intro x hx
          simp only [Finset.mem_sdiff, Finset.mem_union, List.toFinset_cons,
            Finset.mem_insert] at hx ⊢
          tauto
        have hcard := Finset.card_le_card hsub
        simp only [floodMeasure, List.length_cons] at h ⊢
        omega
      · have hcellmem : cell ∈ (boardCells s.cfg ∪ (cell :: rest).toFinset) \ s.revealed := by
          simp only [Finset.mem_sdiff, Finset.mem_union, List.toFinset_cons,
            Finset.mem_insert]
          exact ⟨Or.inr (Or.inl trivial), fun hc => hskip (Or.inl hc)⟩
        have hTpos : 1 ≤ ((boardCells s.cfg ∪ (cell :: rest).toFinset) \ s.revealed).card :=
          Finset.card_pos.mpr ⟨cell, hcellmem⟩
        by_cases hadj : s.adj cell = 0
        · rw [flood_loop_zero_adj hskip hadj]
          apply ih
          set pushed := (neighbors s.cfg cell.1 cell.2).filter fun nb =>
            decide (nb ∉ insert cell s.revealed ∧ nb ∉ s.mines ∧ nb ∉ s.flags) with hpushed
          have hsub : (boardCells s.cfg ∪ (pushed.reverse ++ rest).toFinset) \
              insert cell s.revealed ⊆
              ((boardCells s.cfg ∪ (cell :: rest).toFinset) \ s.revealed).erase cell := by
            intro x hx
            simp only [Finset.mem_sdiff, Finset.mem_union, Finset.mem_insert,
              Finset.mem_erase, List.toFinset_cons, List.mem_toFinset,
              List.mem_append, List.mem_reverse, not_or] at hx ⊢
            obtain ⟨hin, hxc, hxr⟩ := hx
            refine ⟨hxc, ?_, hxr⟩
            rcases hin with hb | hpr
            · exact Or.inl hb
            · rcases hpr with hp | hr
              · rw [hpushed, List.mem_filter] at hp
                exact Or.inl (neighbors_mem_boardCells hp.1)
              · exact Or.inr (Or.inr hr)
          have hcard := Finset.card_le_card hsub
          rw [Finset.card_erase_of_mem hcellmem] at hcard
          have hplen : pushed.length ≤ 8 := by
            calc pushed.length ≤ (neighbors s.cfg cell.1 cell.2).length :=
                  List.length_filter_le _ _
            _ ≤ 8 := neighbors_length_le s.cfg cell.1 cell.2
          simp only [floodMeasure, List.length_cons, List.length_append,
            List.length_reverse] at h ⊢
          omega
        · rw [flood_loop_pos_adj hskip hadj]
          apply ih
          have hsub : (boardCells s.cfg ∪ rest.toFinset) \ insert cell s.revealed ⊆
              ((boardCells s.cfg ∪ (cell :: rest).toFinset) \ s.revealed).erase cell := by
            intro x hx
            simp only [Finset.mem_sdiff, Finset.mem_union, Finset.mem_insert,
              Finset.mem_erase, List.toFinset_cons, not_or] at hx ⊢
            tauto
          have hcard := Finset.card_le_card hsub
          rw [Finset.card_erase_of_mem hcellmem] at hcard
          simp only [floodMeasure, List.length_cons] at h ⊢
          omega

/-! Unfolding equations for `reveal`, and the state after lazy placement. -/

theorem reveal_noop_frozen {pick : List Coord → Int → List Coord}
    {s : GameState} {r c : Int}
    (h : s.gameOver = true ∨ in_bounds s.cfg r c = false) :
    reveal pick s r c = s := by
  rw [reveal, if_pos h]

theorem reveal_noop_blocked {pick : List Coord → Int → List Coord}
    {s : GameState} {r c : Int}
    (h : ¬(s.gameOver = true ∨ in_bounds s.cfg r c = false))
    (h2 : (r, c) ∈ s.flags ∨ (r, c) ∈ s.revealed) :
    reveal pick s r c = s := by
  rw [reveal, if_neg h, if_pos h2]

theorem reveal_mine_hit {pick : List Coord → Int → List Coord}
    {s : GameState} {r c : Int}
    (h : ¬(s.gameOver = true ∨ in_bounds s.cfg r c = false))
    (h2 : ¬((r, c) ∈ s.flags ∨ (r, c) ∈ s.revealed))
    (h3 : (r, c) ∈ (placeIfNeeded pick s (r, c)).mines) :
    reveal pick s r c =
      { placeIfNeeded pick s (r, c) with
        gameOver := true
        won := false
        revealed := insert (r, c) (placeIfNeeded pick s (r, c)).revealed } := by
  rw [reveal, if_neg h, if_neg h2, if_pos h3]

theorem reveal_safe_cell {pick : List Coord → Int → List Coord}
    {s : GameState} {r c : Int}
    (h : ¬(s.gameOver = true ∨ in_bounds s.cfg r c = false))
    (h2 : ¬((r, c) ∈ s.flags ∨ (r, c) ∈ s.revealed))
    (h3 : (r, c) ∉ (placeIfNeeded pick s (r, c)).mines) :
    reveal pick s r c =
      check_win (flood_reveal (placeIfNeeded pick s (r, c)) (r, c)) := by
  rw [reveal, if_neg h, if_neg h2, if_neg h3]

/-! The inductive invariant carried by every reachable state. -/

structure Inv (s : GameState) : Prop where
  valid : ValidCfg s.cfg
  rev_board : s.revealed ⊆ boardCells s.cfg
  flags_board : s.flags ⊆ boardCells s.cfg
  mines_board : s.mines ⊆ boardCells s.cfg
  disj_rf : Disjoint s.revealed s.flags
  placed_card : s.minesPlaced = true → (s.mines.card : Int) = s.cfg.mines
  placed_adj : s.minesPlaced = true → s.adj = adjFromMines s.cfg s.mines
  unplaced : s.minesPlaced = false → s.mines = ∅ ∧ s.revealed = ∅
  live_no_mine : s.gameOver = false → Disjoint s.revealed s.mines
  live_card : s.gameOver = false →
    (s.revealed.card : Int) < s.cfg.rows * s.cfg.cols - s.cfg.mines
  live_won : s.gameOver = false → s.won = false
  won_card : s.won = true →
    (s.revealed.card : Int) = s.cfg.rows * s.cfg.cols - s.cfg.mines
  won_over : s.won = true → s.gameOver = true

theorem inv_initState {cfg : GameConfig} (hv : ValidCfg cfg) :
    Inv (initState cfg) := by
  refine ⟨hv, ?_, ?_, ?_, ?_, ?_, ?_, ?_, ?_, ?_, ?_, ?_, ?_⟩
  · exact Finset.empty_subset _
  · exact Finset.empty_subset _
  · exact Finset.empty_subset _
  · exact Finset.disjoint_empty_left _
  · intro h; exact absurd h (by simp [initState])
  · intro h; exact absurd h (by simp [initState])
  · intro _; exact ⟨rfl, rfl⟩
  · intro _
    exact Finset.disjoint_empty_left _
  · intro _
    have h2 := hv.2
    simp only [initState, Finset.card_empty]
    omega
  · intro _; rfl
  · intro h; exact absurd h (by simp [initState])
  · intro h; exact absurd h (by simp [initState])

theorem card_boardCells_int {cfg : GameConfig} (hr : 0 < cfg.rows)
    (hc : 0 < cfg.cols) :
    ((boardCells cfg).card : Int) = cfg.rows * cfg.cols := by
  rw [card_boardCells]
  push_cast
  rw [Int.toNat_of_nonneg hr.le, Int.toNat_of_nonneg hc.le]

theorem placeIfNeeded_spec {pick : List Coord → Int → List Coord}
    {s : GameState} {safe : Coord} (hs : Inv s) (hp : ValidPick pick)
    (hb : in_bounds s.cfg safe.1 safe.2 = true) :
    (placeIfNeeded pick s safe).cfg = s.cfg ∧
    (placeIfNeeded pick s safe).revealed = s.revealed ∧
    (placeIfNeeded pick s safe).flags = s.flags ∧
    (placeIfNeeded pick s safe).gameOver = s.gameOver ∧
    (placeIfNeeded pick s safe).won = s.won ∧
    (placeIfNeeded pick s safe).minesPlaced = true ∧
    ((placeIfNeeded pick s safe).mines.card : Int) = s.cfg.mines ∧
    (placeIfNeeded pick s safe).mines ⊆ boardCells s.cfg ∧
    (placeIfNeeded pick s safe).adj =
      adjFromMines s.cfg (placeIfNeeded pick s safe).mines ∧
    (s.gameOver = false →
      Disjoint (placeIfNeeded pick s safe).revealed (placeIfNeeded pick s safe).mines) ∧
    (s.minesPlaced = false → safe ∉ (placeIfNeeded pick s safe).mines) := by
  rw [placeIfNeeded]
  split
  · rename_i hpl
    refine ⟨rfl, rfl, rfl, rfl, rfl, hpl, hs.placed_card hpl, hs.mines_board,
      hs.placed_adj hpl, hs.live_no_mine, fun hnp => ?_⟩
    rw [hnp] at hpl
    exact absurd hpl (by decide)
  · rename_i hnpl
    have hnp : s.minesPlaced = false := Bool.not_eq_true _ |>.mp hnpl
    obtain ⟨hcard, hsafe, hboard⟩ := place_mines_mines_spec hs.valid hb hp
    refine ⟨rfl, rfl, rfl, rfl, rfl, rfl, ?_, ?_, rfl, ?_, fun _ => hsafe⟩
    · rw [hcard]
      have h0 := hs.valid.1
      omega
    · intro p hpmem
      exact hboard p hpmem
    · intro _
      have hre : s.revealed = ∅ := (hs.unplaced hnp).2
      show Disjoint s.revealed _
      rw [hre]
      exact Finset.disjoint_empty_left _

/-- Replacing the flag set with another board subset disjoint from the
revealed cells preserves the invariant. -/
theorem inv_of_flags_change {s : GameState} (hs : Inv s) (f : Finset Coord)
    (hb : f ⊆ boardCells s.cfg) (hd : Disjoint s.revealed f) :
    Inv { s with flags := f } :=
  { valid := hs.valid
    rev_board := hs.rev_board
    flags_board := hb
    mines_board := hs.mines_board
    disj_rf := hd
    placed_card := hs.placed_card
    placed_adj := hs.placed_adj
    unplaced := hs.unplaced
    live_no_mine := hs.live_no_mine
    live_card := hs.live_card
    live_won := hs.live_won
    won_card := hs.won_card
    won_over := hs.won_over }

theorem inv_toggle_flag {s : GameState} {r c : Int} (hs : Inv s) :
    Inv (toggle_flag s r c) := by
  rw [toggle_flag]
  split
  · exact hs
  rename_i hguard
  split
  · exact hs
  rename_i hrev
  have hbnd : in_bounds s.cfg r c = true := by
    rcases not_or.mp hguard with ⟨-, hbf⟩
    exact Bool.not_eq_false _ |>.mp hbf
  split
  · exact inv_of_flags_change hs _
      (fun x hx => hs.flags_board (Finset.mem_of_mem_erase hx))
      (hs.disj_rf.mono_right (Finset.erase_subset _ _))
  · refine inv_of_flags_change hs _ ?_ ?_
    · intro x hx
      rcases Finset.mem_insert.mp hx with rfl | hx2
      · exact in_bounds_iff_mem_boardCells.mp hbnd
      · exact hs.flags_board hx2
    · exact Finset.disjoint_insert_right.mpr ⟨hrev, hs.disj_rf⟩

/-- The invariant holds after losing to a mine at `p`. -/
theorem inv_mine_hit_state {s1 : GameState} {p : Coord} (hv : ValidCfg s1.cfg)
    (hrb : s1.revealed ⊆ boardCells s1.cfg)
    (hfb : s1.flags ⊆ boardCells s1.cfg)
    (hmb : s1.mines ⊆ boardCells s1.cfg)
    (hdisj : Disjoint s1.revealed s1.flags)
    (hpb : p ∈ boardCells s1.cfg) (hpf : p ∉ s1.flags)
    (hmp : s1.minesPlaced = true)
    (hcard : (s1.mines.card : Int) = s1.cfg.mines)
    (hadj : s1.adj = adjFromMines s1.cfg s1.mines) :
    Inv { s1 with
          gameOver := true
          won := false
          revealed := insert p s1.revealed } :=
  { valid := hv
    rev_board := Finset.insert_subset_iff.mpr ⟨hpb, hrb⟩
    flags_board := hfb
    mines_board := hmb
    disj_rf := Finset.disjoint_insert_left.mpr ⟨hpf, hdisj⟩
    placed_card := fun _ => hcard
    placed_adj := fun _ => hadj
    unplaced := fun h => by simp [hmp] at h
    live_no_mine := fun h => by simp at h
    live_card := fun h => by simp at h
    live_won := fun h => by simp at h
    won_card := fun h => by simp at h
    won_over := fun _ => rfl }

/-- The invariant holds after a non-mine reveal: flood reveal from the
clicked cell followed by the win check. -/
theorem inv_safe_reveal_state {s1 : GameState} {p : Coord} (hv : ValidCfg s1.cfg)
    (hrb : s1.revealed ⊆ boardCells s1.cfg)
    (hfb : s1.flags ⊆ boardCells s1.cfg)
    (hmb : s1.mines ⊆ boardCells s1.cfg)
    (hdisj : Disjoint s1.revealed s1.flags)
    (hdisj2 : Disjoint s1.revealed s1.mines)
    (hpb : p ∈ boardCells s1.cfg) (hpm : p ∉ s1.mines) (hpf : p ∉ s1.flags)
    (hmp : s1.minesPlaced = true)
    (hcard : (s1.mines.card : Int) = s1.cfg.mines)
    (hadj : s1.adj = adjFromMines s1.cfg s1.mines)
    (hlive : s1.gameOver = false) (hwon : s1.won = false) :
    Inv (check_win (flood_reveal s1 p)) := by
  obtain ⟨⟨hcfg, hmines, hflags, hadj2, hmp2, hgo2, hwon2⟩, hsub, hchar⟩ :=
    flood_loop_spec (flood_fuel s1.cfg) s1 [p]
  replace hcfg : (flood_reveal s1 p).cfg = s1.cfg := hcfg
  replace hmines : (flood_reveal s1 p).mines = s1.mines := hmines
  replace hflags : (flood_reveal s1 p).flags = s1.flags := hflags
  replace hadj2 : (flood_reveal s1 p).adj = s1.adj := hadj2
  replace hmp2 : (flood_reveal s1 p).minesPlaced = s1.minesPlaced := hmp2
  replace hgo2 : (flood_reveal s1 p).gameOver = s1.gameOver := hgo2
  replace hwon2 : (flood_reveal s1 p).won = s1.won := hwon2
  have hrm : ∀ x ∈ (flood_reveal s1 p).revealed,
      x ∈ boardCells s1.cfg ∧ x ∉ s1.mines ∧ x ∉ s1.flags := by
    intro x hx
    by_cases hold : x ∈ s1.revealed
    · exact ⟨hrb hold, Finset.disjoint_left.mp hdisj2 hold,
        Finset.disjoint_left.mp hdisj hold⟩
    · obtain ⟨hxf, hxw⟩ := hchar x hx hold
      rcases hxw with hxp | hxb
      · rw [List.mem_singleton] at hxp
        subst hxp
        exact ⟨hpb, hpm, hxf⟩
      · exact ⟨hxb.1, hxb.2, hxf⟩
  have hrbd : (flood_reveal s1 p).revealed ⊆ boardCells s1.cfg \ s1.mines := by
    intro x hx
    rcases hrm x hx with ⟨h1, h2, -⟩
    exact Finset.mem_sdiff.mpr ⟨h1, h2⟩
  have hr1 : 0 < s1.cfg.rows := by
    have := mem_boardCells.mp hpb
    omega
  have hc1 : 0 < s1.cfg.cols := by
    have := mem_boardCells.mp hpb
    omega
  have hcardle : ((flood_reveal s1 p).revealed.card : Int) ≤
      s1.cfg.rows * s1.cfg.cols - s1.cfg.mines := by
    have h1 := Finset.card_le_card hrbd
    rw [Finset.card_sdiff hmb] at h1
    have h2 : s1.mines.card ≤ (boardCells s1.cfg).card := Finset.card_le_card hmb
    have h3 := card_boardCells_int hr1 hc1
    omega
  have hdisj_rf2 : Disjoint (flood_reveal s1 p).revealed (flood_reveal s1 p).flags := by
    rw [hflags]
    exact Finset.disjoint_left.mpr (fun _ hx => (hrm _ hx).2.2)
  rw [check_win]
  split
  · rename_i hwin
    refine ⟨?_, ?_, ?_, ?_, ?_, ?_, ?_, ?_, ?_, ?_, ?_, ?_, ?_⟩
    · show ValidCfg (flood_reveal s1 p).cfg
      rw [hcfg]; exact hv
    · show (flood_reveal s1 p).revealed ⊆ boardCells (flood_reveal s1 p).cfg
      rw [hcfg]
      exact fun x hx => (hrm x hx).1
    · show (flood_reveal s1 p).flags ⊆ boardCells (flood_reveal s1 p).cfg
      rw [hcfg, hflags]; exact hfb
    · show (flood_reveal s1 p).mines ⊆ boardCells (flood_reveal s1 p).cfg
      rw [hcfg, hmines]; exact hmb
    · exact hdisj_rf2
    · intro _
      show ((flood_reveal s1 p).mines.card : Int) = (flood_reveal s1 p).cfg.mines
      rw [hcfg, hmines]; exact hcard
    · intro _
      show (flood_reveal s1 p).adj =
        adjFromMines (flood_reveal s1 p).cfg (flood_reveal s1 p).mines
      rw [hcfg, hmines, hadj2]; exact hadj
    · intro h
      rw [hmp2, hmp] at h
      exact absurd h (by decide)
    · intro h; simp at h
    · intro h; simp at h
    · intro h; simp at h
    · intro _
      show ((flood_reveal s1 p).revealed.card : Int) =
        (flood_reveal s1 p).cfg.rows * (flood_reveal s1 p).cfg.cols -
          (flood_reveal s1 p).cfg.mines
      rw [hcfg] at hwin ⊢
      exact hwin
    · intro _; rfl
  · rename_i hnwin
    refine ⟨?_, ?_, ?_, ?_, ?_, ?_, ?_, ?_, ?_, ?_, ?_, ?_, ?_⟩
    · rw [hcfg]; exact hv
    · rw [hcfg]; exact fun x hx => (hrm x hx).1
    · rw [hcfg, hflags]; exact hfb
    · rw [hcfg, hmines]; exact hmb
    · exact hdisj_rf2
    · intro _
      rw [hcfg, hmines]; exact hcard
    · intro _
      rw [hcfg, hmines, hadj2]; exact hadj
    · intro h
      rw [hmp2, hmp] at h
      exact absurd h (by decide)
    · intro _
      rw [hmines]
      exact Finset.disjoint_left.mpr (fun _ hx => (hrm _ hx).2.1)
    · intro _
      rw [hcfg] at hnwin ⊢
      omega
    · intro _
      rw [hwon2]; exact hwon
    · intro h
      rw [hwon2, hwon] at h
      exact absurd h (by decide)
    · intro h
      rw [hwon2, hwon] at h
      exact absurd h (by decide)

theorem inv_reveal {pick : List Coord → Int → List Coord} {s : GameState}
    {r c : Int} (hs : Inv s) (hp : ValidPick pick) :
    Inv (reveal pick s r c) := by
  by_cases h1 : s.gameOver = true ∨ in_bounds s.cfg r c = false
  · rw [reveal_noop_frozen h1]; exact hs
  by_cases h2 : (r, c) ∈ s.flags ∨ (r, c) ∈ s.revealed
  · rw [reveal_noop_blocked h1 h2]; exact hs
  have hbnd : in_bounds s.cfg r c = true := by
    rcases not_or.mp h1 with ⟨-, hbf⟩
    exact Bool.not_eq_false _ |>.mp hbf
  have hlive : s.gameOver = false := by
    rcases not_or.mp h1 with ⟨hg, -⟩
    exact Bool.not_eq_true _ |>.mp hg
  have hwon : s.won = false := hs.live_won hlive
  obtain ⟨hcfg, hrev, hflags, hgo, hw, hmp, hcard, hmb, hadj, hdisj2, -⟩ :=
    @placeIfNeeded_spec pick s (r, c) hs hp hbnd
  by_cases h3 : (r, c) ∈ (placeIfNeeded pick s (r, c)).mines
  · rw [reveal_mine_hit h1 h2 h3]
    refine inv_mine_hit_state ?_ ?_ ?_ ?_ ?_ ?_ ?_ ?_ ?_ ?_
    · rw [hcfg]; exact hs.valid
    · rw [hrev, hcfg]; exact hs.rev_board
    · rw [hflags, hcfg]; exact hs.flags_board
    · rw [hcfg]; exact hmb
    · rw [hrev, hflags]; exact hs.disj_rf
    · rw [hcfg]; exact in_bounds_iff_mem_boardCells.mp hbnd
    · rw [hflags]; exact (not_or.mp h2).1
    · exact hmp
    · rw [hcfg]; exact hcard
    · rw [hcfg]; exact hadj
  · rw [reveal_safe_cell h1 h2 h3]
    refine inv_safe_reveal_state ?_ ?_ ?_ ?_ ?_ ?_ ?_ ?_ ?_ ?_ ?_ ?_ ?_ ?_
    · rw [hcfg]; exact hs.valid
    · rw [hrev, hcfg]; exact hs.rev_board
    · rw [hflags, hcfg]; exact hs.flags_board
    · rw [hcfg]; exact hmb
    · rw [hrev, hflags]; exact hs.disj_rf
    · exact hdisj2 hlive
    · rw [hcfg]; exact in_bounds_iff_mem_boardCells.mp hbnd
    · exact h3
    · rw [hflags]; exact (not_or.mp h2).1
    · exact hmp
    · rw [hcfg]; exact hcard
    · rw [hcfg]; exact hadj
    · rw [hgo]; exact hlive
    · rw [hw]; exact hwon

/-- Every reachable state satisfies the inductive invariant. -/
theorem reachable_inv {s : GameState} (h : Reachable s) : Inv s := by
  induction h with
  | init cfg hv => exact inv_initState hv
  | step_reveal pick r c hr hp ih => exact inv_reveal ih hp
  | step_flag r c hr ih => exact inv_toggle_flag ih

/-! Small helper equations used by several claims. -/

theorem check_win_mines (s : GameState) : (check_win s).mines = s.mines := by
  rw [check_win]
  split <;> rfl

theorem toggle_flag_erase_eq {s : GameState} {r c : Int}
    (h1 : ¬(s.gameOver = true ∨ in_bounds s.cfg r c = false))
    (hnr : (r, c) ∉ s.revealed) (hf : (r, c) ∈ s.flags) :
    toggle_flag s r c = { s with flags := s.flags.erase (r, c) } := by
  rw [toggle_flag, if_neg h1, if_neg hnr, if_pos hf]

theorem toggle_flag_insert_eq {s : GameState} {r c : Int}
    (h1 : ¬(s.gameOver = true ∨ in_bounds s.cfg r c = false))
    (hnr : (r, c) ∉ s.revealed) (hnf : (r, c) ∉ s.flags) :
    toggle_flag s r c = { s with flags := insert (r, c) s.flags } := by
  rw [toggle_flag, if_neg h1, if_neg hnr, if_neg hnf]

theorem mines_fixed_once_placed (t : GameState)
    (pick2 : List Coord → Int → List Coord) (r c : Int)
    (hmp : t.minesPlaced = true) :
    (reveal pick2 t r c).mines = t.mines ∧ (toggle_flag t r c).mines = t.mines := by
  constructor
  · by_cases h1 : t.gameOver = true ∨ in_bounds t.cfg r c = false
    · rw [reveal_noop_frozen h1]
    by_cases h2 : (r, c) ∈ t.flags ∨ (r, c) ∈ t.revealed
    · rw [reveal_noop_blocked h1 h2]
    have hplace : placeIfNeeded pick2 t (r, c) = t := by
      rw [placeIfNeeded, if_pos hmp]
    by_cases h3 : (r, c) ∈ (placeIfNeeded pick2 t (r, c)).mines
    · rw [reveal_mine_hit h1 h2 h3, hplace]
    · rw [reveal_safe_cell h1 h2 h3, hplace, check_win_mines]
      exact (flood_loop_spec _ t [(r, c)]).1.2.1
  · rw [toggle_flag]
    split
    · rfl
    split
    · rfl
    split
    · rfl
    · rfl

/-- C3 counterexample: the constructor accepts `mines = -1` on a 2-by-2
board (it returns a fresh state rather than failing), although the claim
requires failure for every `mines` outside `[0, rows*cols)`. -/
theorem mkGame_accepts_negative_mines :
    mkGame ⟨2, 2, -1⟩ = Except.ok (initState ⟨2, 2, -1⟩) ∧
    ¬(0 ≤ (GameConfig.mk 2 2 (-1)).mines ∧
      (GameConfig.mk 2 2 (-1)).mines <
        (GameConfig.mk 2 2 (-1)).rows * (GameConfig.mk 2 2 (-1)).cols) := by
  constructor
  · rfl
  · decide

/-- C3 (amended): engine construction fails iff `mines >= rows*cols` — only
the upper bound is validated, so a negative mine count is accepted and
construction succeeds with the fresh state whenever `mines < rows*cols`. -/
theorem mkGame_error_iff (cfg : GameConfig) :
    ((∃ msg, mkGame cfg = Except.error msg) ↔ cfg.rows * cfg.cols ≤ cfg.mines) ∧
    (cfg.mines < cfg.rows * cfg.cols → mkGame cfg = Except.ok (initState cfg)) := by
  constructor
  · constructor
    · rintro ⟨msg, h⟩
      by_contra hlt
      rw [mkGame, if_neg hlt] at h
      cases h
    · intro h
      exact ⟨_, by rw [mkGame, if_pos h]⟩
  · intro h
    rw [mkGame, if_neg (by omega)]

theorem mkGame_error_iff_witness :
    ((∃ msg, mkGame ⟨2, 2, 5⟩ = Except.error msg) ↔ (2 : Int) * 2 ≤ 5) ∧
    ((5 : Int) < 2 * 2 → mkGame ⟨2, 2, 5⟩ = Except.ok (initState ⟨2, 2, 5⟩)) :=
  mkGame_error_iff ⟨2, 2, 5⟩

/-- C5: once `gameOver` is true in a reachable state, `reveal` and
`toggle_flag` return the state record unchanged — every field identical. -/
theorem terminal_moves_noop {s : GameState} (hr : Reachable s)
    (hgo : s.gameOver = true) (pick : List Coord → Int → List Coord)
    (r c : Int) : reveal pick s r c = s ∧ toggle_flag s r c = s := by
  constructor
  · exact reveal_noop_frozen (Or.inl hgo)
  · rw [toggle_flag, if_pos (Or.inl hgo)]

theorem terminal_moves_noop_witness :
    (reveal pickTake (initState ⟨1, 2, 0⟩) 0 0).gameOver = true ∧
    reveal pickTake (reveal pickTake (initState ⟨1, 2, 0⟩) 0 0) 0 1 =
      reveal pickTake (initState ⟨1, 2, 0⟩) 0 0 ∧
    toggle_flag (reveal pickTake (initState ⟨1, 2, 0⟩) 0 0) 0 1 =
      reveal pickTake (initState ⟨1, 2, 0⟩) 0 0 := by
  refine ⟨rfl, ?_⟩
  exact terminal_moves_noop
    (Reachable.step_reveal pickTake 0 0
      (Reachable.init ⟨1, 2, 0⟩ ⟨by decide, by decide⟩) validPick_pickTake)
    rfl pickTake 0 1

/-- C6: in every reachable state the revealed and flagged sets are disjoint,
flagging a revealed cell is an exact no-op, and revealing a flagged cell is
an exact no-op (in particular it cannot trigger mine placement). -/
theorem revealed_flags_disjoint {s : GameState} (hr : Reachable s)
    (pick : List Coord → Int → List Coord) (r c : Int) :
    Disjoint s.revealed s.flags ∧
    ((r, c) ∈ s.revealed → toggle_flag s r c = s) ∧
    ((r, c) ∈ s.flags → reveal pick s r c = s) := by
  refine ⟨(reachable_inv hr).disj_rf, ?_, ?_⟩
  · intro h
    rw [toggle_flag]
    by_cases h1 : s.gameOver = true ∨ in_bounds s.cfg r c = false
    · rw [if_pos h1]
    · rw [if_neg h1, if_pos h]
  · intro h
    by_cases h1 : s.gameOver = true ∨ in_bounds s.cfg r c = false
    · exact reveal_noop_frozen h1
    · exact reveal_noop_blocked h1 (Or.inl h)

theorem revealed_flags_disjoint_witness :
    Disjoint (toggle_flag (initState ⟨1, 4, 1⟩) 0 1).revealed
      (toggle_flag (initState ⟨1, 4, 1⟩) 0 1).flags ∧
    (((0 : Int), (1 : Int)) ∈ (toggle_flag (initState ⟨1, 4, 1⟩) 0 1).revealed →
      toggle_flag (toggle_flag (initState ⟨1, 4, 1⟩) 0 1) 0 1 =
        toggle_flag (initState ⟨1, 4, 1⟩) 0 1) ∧
    (((0 : Int), (1 : Int)) ∈ (toggle_flag (initState ⟨1, 4, 1⟩) 0 1).flags →
      reveal pickTake (toggle_flag (initState ⟨1, 4, 1⟩) 0 1) 0 1 =
        toggle_flag (initState ⟨1, 4, 1⟩) 0 1) :=
  revealed_flags_disjoint
    (Reachable.step_flag 0 1 (Reachable.init ⟨1, 4, 1⟩ ⟨by decide, by decide⟩))
    pickTake 0 1

/-- C8: on a live reachable state, toggling an in-bounds unrevealed cell
flips its flag membership, and toggling twice restores the state exactly. -/
theorem toggle_flag_involution {s : GameState} (hr : Reachable s)
    (r c : Int) (hgo : s.gameOver = false) (hb : in_bounds s.cfg r c = true)
    (hnr : (r, c) ∉ s.revealed) :
    toggle_flag (toggle_flag s r c) r c = s ∧
    ((r, c) ∈ (toggle_flag s r c).flags ↔ (r, c) ∉ s.flags) := by
  have h1 : ¬(s.gameOver = true ∨ in_bounds s.cfg r c = false) := by
    rw [hgo, hb]
    decide
  by_cases hf : (r, c) ∈ s.flags
  · rw [toggle_flag_erase_eq h1 hnr hf]
    have h1a : ¬(({ s with flags := s.flags.erase (r, c) } : GameState).gameOver = true ∨
        in_bounds ({ s with flags := s.flags.erase (r, c) } : GameState).cfg r c = false) := h1
    have hnra : (r, c) ∉ ({ s with flags := s.flags.erase (r, c) } : GameState).revealed := hnr
    have hnfa : (r, c) ∉ ({ s with flags := s.flags.erase (r, c) } : GameState).flags :=
      Finset.not_mem_erase _ _
    constructor
    · rw [toggle_flag_insert_eq h1a hnra hnfa]
      have he : ({ s with flags := insert (r, c) (s.flags.erase (r, c)) } : GameState) = s := by
        rw [Finset.insert_erase hf]
      exact he
    · simp [Finset.not_mem_erase, hf]
  · rw [toggle_flag_insert_eq h1 hnr hf]
    have h1a : ¬(({ s with flags := insert (r, c) s.flags } : GameState).gameOver = true ∨
        in_bounds ({ s with flags := insert (r, c) s.flags } : GameState).cfg r c = false) := h1
    have hnra : (r, c) ∉ ({ s with flags := insert (r, c) s.flags } : GameState).revealed := hnr
    have hfa : (r, c) ∈ ({ s with flags := insert (r, c) s.flags } : GameState).flags :=
      Finset.mem_insert_self _ _
    constructor
    · rw [toggle_flag_erase_eq h1a hnra hfa]
      have he : ({ s with flags := (insert (r, c) s.flags).erase (r, c) } : GameState) = s := by
        rw [Finset.erase_insert hf]
      exact he
    · simp [hf]

theorem toggle_flag_involution_witness :
    (initState ⟨1, 2, 0⟩).gameOver = false ∧
    toggle_flag (toggle_flag (initState ⟨1, 2, 0⟩) 0 0) 0 0 = initState ⟨1, 2, 0⟩ ∧
    (((0 : Int), (0 : Int)) ∈ (toggle_flag (initState ⟨1, 2, 0⟩) 0 0).flags ↔
      ((0 : Int), (0 : Int)) ∉ (initState ⟨1, 2, 0⟩).flags) := by
  refine ⟨rfl, ?_⟩
  exact toggle_flag_involution (Reachable.init ⟨1, 2, 0⟩ ⟨by decide, by decide⟩)
    0 0 rfl (by decide) (by decide)

theorem check_win_gameOver_of_won_false {s : GameState} (hgo : s.gameOver = false)
    (h : (check_win s).won = false) : (check_win s).gameOver = false := by
  rw [check_win] at h ⊢
  split at h
  · simp at h
  · rename_i hcond
    rw [if_neg hcond]
    exact hgo

/-- C1: on every valid configuration, creating an engine and issuing
`reveal (r, c)` as the first operation never hits a mine, for every valid
sampler (every random seed): afterwards `(r, c)` is not in the mine set, and
unless the game was won the game is not over. -/
theorem first_click_safe {cfg : GameConfig} (hv : ValidCfg cfg) {r c : Int}
    (hb : in_bounds cfg r c = true)
    {pick : List Coord → Int → List Coord} (hp : ValidPick pick) :
    (r, c) ∉ (reveal pick (initState cfg) r c).mines ∧
    ((reveal pick (initState cfg) r c).won = false →
      (reveal pick (initState cfg) r c).gameOver = false) := by
  have hI : Inv (initState cfg) := inv_initState hv
  have h1 : ¬((initState cfg).gameOver = true ∨
      in_bounds (initState cfg).cfg r c = false) := by
    simp [initState, hb]
  have h2 : ¬((r, c) ∈ (initState cfg).flags ∨ (r, c) ∈ (initState cfg).revealed) := by
    simp [initState]
  obtain ⟨hcfg, hrev, hflags, hgo, hw, hmp, hcard, hmb, hadj, hdisj2, hns⟩ :=
    @placeIfNeeded_spec pick (initState cfg) (r, c) hI hp hb
  have h3 : (r, c) ∉ (placeIfNeeded pick (initState cfg) (r, c)).mines := hns rfl
  rw [reveal_safe_cell h1 h2 h3]
  constructor
  · rw [check_win_mines]
    have hm2 : (flood_reveal (placeIfNeeded pick (initState cfg) (r, c)) (r, c)).mines =
        (placeIfNeeded pick (initState cfg) (r, c)).mines :=
      (flood_loop_spec _ _ [(r, c)]).1.2.1
    rw [hm2]
    exact h3
  · apply check_win_gameOver_of_won_false
    have hfgo : (flood_reveal (placeIfNeeded pick (initState cfg) (r, c)) (r, c)).gameOver =
        (placeIfNeeded pick (initState cfg) (r, c)).gameOver :=
      (flood_loop_spec _ _ [(r, c)]).1.2.2.2.2.2.1
    rw [hfgo, hgo]
    rfl

theorem first_click_safe_witness :
    ((0 : Int), (0 : Int)) ∉ (reveal pickTake (initState ⟨1, 4, 1⟩) 0 0).mines ∧
    ((reveal pickTake (initState ⟨1, 4, 1⟩) 0 0).won = false →
      (reveal pickTake (initState ⟨1, 4, 1⟩) 0 0).gameOver = false) :=
  first_click_safe ⟨by decide, by decide⟩ (by decide) validPick_pickTake

/-- C7: with a valid configuration and an in-bounds safe cell, mine placement
always has a pool of at least `mines` candidates (the fallback guarantees
success), places exactly `mines` distinct board cells avoiding the safe
cell, and the mine set never changes under later operations once placed. -/
theorem placement_succeeds {cfg : GameConfig} (hv : ValidCfg cfg)
    {safe : Coord} (hb : in_bounds cfg safe.1 safe.2 = true)
    {pick : List Coord → Int → List Coord} (hp : ValidPick pick)
    {s : GameState} (hcfg : s.cfg = cfg) :
    cfg.mines ≤ ((placement_pool cfg safe).length : Int) ∧
    ((place_mines_first_click_safe pick s safe).mines.card : Int) = cfg.mines ∧
    safe ∉ (place_mines_first_click_safe pick s safe).mines ∧
    (∀ (t : GameState) (pick2 : List Coord → Int → List Coord) (r c : Int),
      t.minesPlaced = true →
      (reveal pick2 t r c).mines = t.mines ∧ (toggle_flag t r c).mines = t.mines) := by
  subst hcfg
  obtain ⟨hcard, hsafe, hboard⟩ := place_mines_mines_spec hv hb hp
  refine ⟨mines_le_length_placement_pool hv hb, ?_, hsafe, ?_⟩
  · rw [hcard]
    have h0 := hv.1
    omega
  · intro t pick2 r c hmp
    exact mines_fixed_once_placed t pick2 r c hmp

theorem placement_succeeds_witness :
    (1 : Int) ≤ ((placement_pool ⟨1, 4, 1⟩ (0, 0)).length : Int) ∧
    ((place_mines_first_click_safe pickTake (initState ⟨1, 4, 1⟩) (0, 0)).mines.card : Int) = 1 ∧
    ((0 : Int), (0 : Int)) ∉
      (place_mines_first_click_safe pickTake (initState ⟨1, 4, 1⟩) (0, 0)).mines ∧
    (reveal pickTake (place_mines_first_click_safe pickTake (initState ⟨1, 4, 1⟩) (0, 0)) 0 2).mines =
      (place_mines_first_click_safe pickTake (initState ⟨1, 4, 1⟩) (0, 0)).mines := by
  obtain ⟨h1, h2, h3, h4⟩ := @placement_succeeds ⟨1, 4, 1⟩ ⟨by decide, by decide⟩
    (0, 0) (by decide) pickTake validPick_pickTake (initState ⟨1, 4, 1⟩) rfl
  exact ⟨h1, h2, h3, (h4 _ pickTake 0 2 rfl).1⟩

/-- The adjacency recomputation described by the spec: the number of mine
cells among the in-bounds 8-neighborhood of the cell. -/
def specAdjacency (cfg : GameConfig) (mines : Finset Coord) (p : Coord) : Nat :=
  (mines.filter (fun m => m ∈ neighbors cfg p.1 p.2)).card

/-- C4: in every reachable state with mines placed, the stored adjacency
value of every in-bounds cell equals the exact number of mines in its
8-neighborhood, recomputed independently from the mine set. -/
theorem adjacency_correct {s : GameState} (hr : Reachable s)
    (hmp : s.minesPlaced = true) {r c : Int} (hb : in_bounds s.cfg r c = true) :
    s.adj (r, c) = specAdjacency s.cfg s.mines (r, c) := by
  have hI := reachable_inv hr
  rw [hI.placed_adj hmp]
  simp only [adjFromMines, specAdjacency]
  congr 1
  apply Finset.filter_congr
  intro m hm
  have hmb : in_bounds s.cfg m.1 m.2 = true :=
    in_bounds_iff_mem_boardCells.mpr (hI.mines_board hm)
  exact mem_neighbors_symm hb hmb

theorem adjacency_correct_witness :
    (reveal pickTake (initState ⟨1, 4, 1⟩) 0 0).minesPlaced = true ∧
    (reveal pickTake (initState ⟨1, 4, 1⟩) 0 0).adj (0, 1) =
      specAdjacency (reveal pickTake (initState ⟨1, 4, 1⟩) 0 0).cfg
        (reveal pickTake (initState ⟨1, 4, 1⟩) 0 0).mines (0, 1) := by
  refine ⟨rfl, ?_⟩
  exact adjacency_correct
    (Reachable.step_reveal pickTake 0 0
      (Reachable.init ⟨1, 4, 1⟩ ⟨by decide, by decide⟩) validPick_pickTake)
    rfl (by decide)

/-- C9: the flood-reveal work list always drains: any fuel at least the
measure empties the stack, in particular the fuel `reveal` supplies, so the
loop terminates and `reveal` completes; each cell is revealed at most once
(the revealed set only grows), and from an in-bounds start at most
`rows*cols` new cells are revealed. -/
theorem flood_reveal_terminates (s : GameState) (stack : List Coord)
    (start : Coord) :
    (∀ fuel : Nat, floodMeasure s stack ≤ fuel → (flood_loop s stack fuel).2 = []) ∧
    (flood_loop s [start] (flood_fuel s.cfg)).2 = [] ∧
    s.revealed ⊆ (flood_reveal s start).revealed ∧
    (in_bounds s.cfg start.1 start.2 = true →
      ((flood_reveal s start).revealed \ s.revealed).card ≤
        s.cfg.rows.toNat * s.cfg.cols.toNat) := by
  refine ⟨fun fuel h => flood_loop_drains fuel s stack h, ?_, ?_, ?_⟩
  · apply flood_loop_drains
    rw [floodMeasure, flood_fuel]
    have h1 : (boardCells s.cfg ∪ [start].toFinset) \ s.revealed ⊆
        boardCells s.cfg ∪ [start].toFinset := Finset.sdiff_subset
    have h2 := Finset.card_le_card h1
    have h3 : (boardCells s.cfg ∪ [start].toFinset).card ≤
        (boardCells s.cfg).card + 1 := by
      have h4 := Finset.card_union_le (boardCells s.cfg) ([start].toFinset)
      have h5 : ([start].toFinset).card ≤ 1 := by simp
      omega
    simp only [List.length_singleton]
    omega
  · exact (flood_loop_spec (flood_fuel s.cfg) s [start]).2.1
  · intro hb
    have hchar := (flood_loop_spec (flood_fuel s.cfg) s [start]).2.2
    have hsubB : (flood_reveal s start).revealed \ s.revealed ⊆ boardCells s.cfg := by
      intro x hx
      rw [Finset.mem_sdiff] at hx
      obtain ⟨hxf, hxw⟩ := hchar x hx.1 hx.2
      rcases hxw with hxs | hxb
      · rw [List.mem_singleton] at hxs
        subst hxs
        exact in_bounds_iff_mem_boardCells.mp hb
      · exact hxb.1
    calc ((flood_reveal s start).revealed \ s.revealed).card
        ≤ (boardCells s.cfg).card := Finset.card_le_card hsubB
      _ = s.cfg.rows.toNat * s.cfg.cols.toNat := card_boardCells s.cfg

theorem flood_reveal_terminates_witness :
    (flood_loop (initState ⟨1, 2, 0⟩) [(0, 0)] (flood_fuel ⟨1, 2, 0⟩)).2 = [] ∧
    ((flood_reveal (initState ⟨1, 2, 0⟩) (0, 0)).revealed \
      (initState ⟨1, 2, 0⟩).revealed).card ≤ 1 * 2 := by
  obtain ⟨h1, h2, h3, h4⟩ := flood_reveal_terminates (initState ⟨1, 2, 0⟩) [(0, 0)] (0, 0)
  exact ⟨h2, h4 (by decide)⟩

/-- C10: in every live reachable state no revealed cell is a mine; the
flood-reveal loop never reveals a mine when its stack is mine-free; and a
mine cell enters the revealed set only in the very transition that sets
`gameOver := true` and `won := false`. -/
theorem revealed_mines_disjoint {s : GameState} (hr : Reachable s)
    (hgo : s.gameOver = false) :
    Disjoint s.revealed s.mines ∧
    (∀ (stack : List Coord) (fuel : Nat), (∀ x ∈ stack, x ∉ s.mines) →
      Disjoint (flood_loop s stack fuel).1.revealed
        (flood_loop s stack fuel).1.mines) ∧
    (∀ (pick : List Coord → Int → List Coord) (r c : Int), ValidPick pick →
      (r, c) ∉ s.revealed → (r, c) ∈ (reveal pick s r c).revealed →
      (r, c) ∈ (reveal pick s r c).mines →
      (reveal pick s r c).gameOver = true ∧ (reveal pick s r c).won = false) := by
  have hI := reachable_inv hr
  have hd : Disjoint s.revealed s.mines := hI.live_no_mine hgo
  refine ⟨hd, ?_, ?_⟩
  · intro stack fuel hstack
    obtain ⟨⟨hcfg, hmines, hflags, hadj2, hmp2, hgo2, hwon2⟩, hsub, hchar⟩ :=
      flood_loop_spec fuel s stack
    rw [hmines]
    rw [Finset.disjoint_left]
    intro x hx hxm
    by_cases hold : x ∈ s.revealed
    · exact Finset.disjoint_left.mp hd hold hxm
    · obtain ⟨hxf, hxw⟩ := hchar x hx hold
      rcases hxw with hxs | hxb
      · exact hstack x hxs hxm
      · exact hxb.2 hxm
  · intro pick r c hp hnr hrev2 hm2
    by_cases h1 : s.gameOver = true ∨ in_bounds s.cfg r c = false
    · rw [reveal_noop_frozen h1] at hrev2
      exact absurd hrev2 hnr
    by_cases h2 : (r, c) ∈ s.flags ∨ (r, c) ∈ s.revealed
    · rw [reveal_noop_blocked h1 h2] at hrev2
      exact absurd hrev2 hnr
    by_cases h3 : (r, c) ∈ (placeIfNeeded pick s (r, c)).mines
    · rw [reveal_mine_hit h1 h2 h3]
      exact ⟨rfl, rfl⟩
    · exfalso
      rw [reveal_safe_cell h1 h2 h3, check_win_mines] at hm2
      have hmeq : (flood_reveal (placeIfNeeded pick s (r, c)) (r, c)).mines =
          (placeIfNeeded pick s (r, c)).mines :=
        (flood_loop_spec _ _ [(r, c)]).1.2.1
      rw [hmeq] at hm2
      exact h3 hm2

theorem revealed_mines_disjoint_witness :
    Disjoint (initState ⟨1, 4, 1⟩).revealed (initState ⟨1, 4, 1⟩).mines ∧
    Disjoint (flood_loop (initState ⟨1, 4, 1⟩) [] 5).1.revealed
      (flood_loop (initState ⟨1, 4, 1⟩) [] 5).1.mines := by
  obtain ⟨h1, h2, h3⟩ := revealed_mines_disjoint
    (Reachable.init ⟨1, 4, 1⟩ ⟨by decide, by decide⟩) rfl
  exact ⟨h1, h2 [] 5 (by simp)⟩

/-- C2: from any live reachable state, a reveal that does not hit a mine
ends with `won = true` and `gameOver = true` exactly when the revealed count
equals `rows*cols - mines`; an effective reveal of a mine sets
`gameOver = true` and `won = false`; and a finished game is frozen by
`reveal`, so no run ever reaches both outcomes. -/
theorem win_condition_correct {s : GameState} (hr : Reachable s)
    {pick : List Coord → Int → List Coord} (hp : ValidPick pick) (r c : Int) :
    (s.gameOver = false → (r, c) ∉ (reveal pick s r c).mines →
      (((reveal pick s r c).won = true ∧ (reveal pick s r c).gameOver = true) ↔
        ((reveal pick s r c).revealed.card : Int) =
          s.cfg.rows * s.cfg.cols - s.cfg.mines)) ∧
    (s.gameOver = false → (r, c) ∈ (reveal pick s r c).mines →
      (r, c) ∉ s.flags → (r, c) ∉ s.revealed → in_bounds s.cfg r c = true →
      (reveal pick s r c).gameOver = true ∧ (reveal pick s r c).won = false) ∧
    (s.gameOver = true → reveal pick s r c = s) ∧
    ((toggle_flag s r c).gameOver = s.gameOver ∧ (toggle_flag s r c).won = s.won) := by
  have hI := reachable_inv hr
  refine ⟨?_, ?_, fun hgo => reveal_noop_frozen (Or.inl hgo), ?_⟩
  · intro hgo hnm
    have hwon : s.won = false := hI.live_won hgo
    have hlt := hI.live_card hgo
    by_cases h1 : s.gameOver = true ∨ in_bounds s.cfg r c = false
    · rw [reveal_noop_frozen h1] at hnm ⊢
      constructor
      · rintro ⟨hw, -⟩
        rw [hwon] at hw
        cases hw
      · intro hc
        omega
    by_cases h2 : (r, c) ∈ s.flags ∨ (r, c) ∈ s.revealed
    · rw [reveal_noop_blocked h1 h2] at hnm ⊢
      constructor
      · rintro ⟨hw, -⟩
        rw [hwon] at hw
        cases hw
      · intro hc
        omega
    have hbnd : in_bounds s.cfg r c = true := by
      rcases not_or.mp h1 with ⟨-, hbf⟩
      exact Bool.not_eq_false _ |>.mp hbf
    obtain ⟨hcfg, hrev, hflags, hgo1, hw1, hmp, hcard, hmb, hadj, hdisj2, -⟩ :=
      @placeIfNeeded_spec pick s (r, c) hI hp hbnd
    by_cases h3 : (r, c) ∈ (placeIfNeeded pick s (r, c)).mines
    · exfalso
      rw [reveal_mine_hit h1 h2 h3] at hnm
      exact hnm h3
    rw [reveal_safe_cell h1 h2 h3]
    have hfcfg : (flood_reveal (placeIfNeeded pick s (r, c)) (r, c)).cfg =
        (placeIfNeeded pick s (r, c)).cfg :=
      (flood_loop_spec _ _ [(r, c)]).1.1
    have hfwon : (flood_reveal (placeIfNeeded pick s (r, c)) (r, c)).won =
        (placeIfNeeded pick s (r, c)).won :=
      (flood_loop_spec _ _ [(r, c)]).1.2.2.2.2.2.2
    rw [check_win]
    split
    · rename_i hcond
      rw [hfcfg, hcfg] at hcond
      exact ⟨fun _ => hcond, fun _ => ⟨rfl, rfl⟩⟩
    · rename_i hcond
      rw [hfcfg, hcfg] at hcond
      constructor
      · rintro ⟨hw, -⟩
        rw [hfwon, hw1, hwon] at hw
        cases hw
      · intro hc
        exact absurd hc hcond
  · intro hgo hm hnf hnr hbnd
    have h1 : ¬(s.gameOver = true ∨ in_bounds s.cfg r c = false) := by
      rw [hgo, hbnd]
      decide
    have h2 : ¬((r, c) ∈ s.flags ∨ (r, c) ∈ s.revealed) := by
      rw [not_or]
      exact ⟨hnf, hnr⟩
    by_cases h3 : (r, c) ∈ (placeIfNeeded pick s (r, c)).mines
    · rw [reveal_mine_hit h1 h2 h3]
      exact ⟨rfl, rfl⟩
    · exfalso
      rw [reveal_safe_cell h1 h2 h3, check_win_mines] at hm
      have hmeq : (flood_reveal (placeIfNeeded pick s (r, c)) (r, c)).mines =
          (placeIfNeeded pick s (r, c)).mines :=
        (flood_loop_spec _ _ [(r, c)]).1.2.1
      rw [hmeq] at hm
      exact h3 hm
  · rw [toggle_flag]
    split
    · exact ⟨rfl, rfl⟩
    split
    · exact ⟨rfl, rfl⟩
    split
    · exact ⟨rfl, rfl⟩
    · exact ⟨rfl, rfl⟩

theorem win_condition_correct_witness :
    (initState ⟨1, 2, 0⟩).gameOver = false ∧
    (((reveal pickTake (initState ⟨1, 2, 0⟩) 0 0).won = true ∧
      (reveal pickTake (initState ⟨1, 2, 0⟩) 0 0).gameOver = true) ↔
      ((reveal pickTake (initState ⟨1, 2, 0⟩) 0 0).revealed.card : Int) =
        1 * 2 - 0) := by
  obtain ⟨h1, h2, h3, h4⟩ := win_condition_correct
    (Reachable.init ⟨1, 2, 0⟩ ⟨by decide, by decide⟩) validPick_pickTake 0 0
  exact ⟨rfl, h1 rfl (by decide)⟩

end Minesweeper









